import Mathlib

/-!
Verification development for the steroidslog asynchronous logging library.

The definitions below are shallow embeddings of the C++ sources:
  * `src/lib/misc/pseudomap.h`        (FNV-1a hash, lock-free format registry)
  * `src/lib/misc/spsc_bounded_queue.h` (SPSC bounded ring buffer)
  * `src/lib/steroidslog/steroidslog.h` (argument packing, consumer formatting,
     shutdown drain)

Machine integers are modelled as `Nat` with explicit reduction modulo
`2 ^ 32` / `2 ^ 64` where the C++ code relies on unsigned wrap-around.
The concurrent code is modelled by sequential state passing: each ring is
owned by one producer and one consumer, and every interleaving of their
calls is a sequence of operations on the explicit state.
-/

namespace steroidslog

/-! ## FNV-1a hash (`pseudomap.h`, `fnv1a_32_constexpr` / `fnv1a_32`) -/

/-- Byte value of a character, as the C++ cast `static_cast<unsigned char>(c)`
applied to a code unit. -/
def byte_of_char (c : Char) : Nat := c.toNat % 256

/-- Embeds `fnv1a_32_constexpr`: `h = 2166136261; for c in s: h ^= byte(c); h *= 16777619`
with `uint32_t` wrap-around after the multiplication. -/
def fnv1a_32_constexpr (s : List Char) : Nat :=
  s.foldl (fun h c => ((h ^^^ byte_of_char c) * 16777619) % 2 ^ 32) 2166136261

/-- Embeds `fnv1a_32(const char (&s)[N])`, which strips the trailing NUL of the
literal and hashes the remaining characters; a Lean `String` carries exactly
those characters. -/
def fnv1a_32 (s : String) : Nat := fnv1a_32_constexpr s.data

/-- The identifier the `STERLOG` macro computes for a full format literal
(`constexpr uint32_t _id_ = fnv1a_32(SL_LEVEL_PREFIX(level) fmt)`). -/
def sterlog_id (lit : String) : Nat := fnv1a_32 lit

/-- FNV-1a as the spec words it: offset basis `0x811C9DC5`, prime `0x01000193`,
`h = (h XOR byte) * prime` over the input bytes.  This definition follows the
spec text and is compared with the source translation `fnv1a_32_constexpr`. -/
def fnv1a_spec (bytes : List Nat) : Nat :=
  bytes.foldl (fun h b => ((h ^^^ b) * 0x01000193) % 2 ^ 32) 0x811C9DC5

/-! ## Format registry (`pseudomap.h`, namespace `pseudomap_detail`) -/

/-- `CAP = 1u << 16` -/
def CAP : Nat := 1 <<< 16

/-- `MASK = CAP - 1` -/
def MASK : Nat := CAP - 1

/-- One slot of the open-addressed table: `key == 0` means empty, `ptr`
is the registered string (`none` models a null pointer). -/
structure Slot where
  key : Nat
  ptr : Option String
deriving DecidableEq

/-- The table of `CAP` slots, as a function from slot index to slot.
All keys used by `index` are below `CAP`. -/
def Table : Type := Nat → Slot

/-- The initial table: every slot zero-initialised (`key 0`, null `ptr`). -/
def emptyTable : Table := fun _ => ⟨0, none⟩

/-- Pointwise update of the table at one index. -/
def updateTable (t : Table) (i : Nat) (s : Slot) : Table :=
  fun j => if j = i then s else t j

/-- `index(id, probe) = (id + probe) & MASK` (linear probing). -/
def index (id probe : Nat) : Nat := (id + probe) &&& MASK

/-- The loop body of `pseudomap_detail::put`, with explicit fuel.
One step per probe: a CAS on `key` succeeds exactly when the slot is empty
(then the slot key becomes `id` and the pointer is stored); if the key is
already `id` the registration is idempotent (the pointer CAS from null only
fires when `ptr` is still null); otherwise probe on.  `index` has period
`CAP`, and the sequential loop never changes the table before returning, so
if `CAP` consecutive probes all fail every later probe repeats them verbatim:
fuel `CAP` is exact, and `none` means the C++ `for(;;)` loop never returns. -/
def put_go (t : Table) (id : Nat) (p : String) : Nat → Nat → Option Table
  | _, 0 => none
  | probe, fuel + 1 =>
    let i := index id probe
    if (t i).key = 0 then
      some (updateTable t i ⟨id, some p⟩)
    else if (t i).key = id then
      some (if (t i).ptr = none then updateTable t i ⟨(t i).key, some p⟩ else t)
    else
      put_go t id p (probe + 1) fuel

/-- Embeds `pseudomap_detail::put(id, sv)`; `none` models the loop never
returning. -/
def put (t : Table) (id : Nat) (p : String) : Option Table :=
  put_go t id p 0 CAP

/-- The loop body of `pseudomap_detail::get_view`, with explicit fuel:
stop at the first empty slot (`some ""`, not found), return the stored
string when the key matches (an unset pointer reads as the empty view),
else probe on.  As for `put_go`, `none` models the loop never returning. -/
def get_view_go (t : Table) (id : Nat) : Nat → Nat → Option String
  | _, 0 => none
  | probe, fuel + 1 =>
    let s := t (index id probe)
    if s.key = 0 then some ""
    else if s.key = id then some (s.ptr.getD "")
    else get_view_go t id (probe + 1) fuel

/-- Embeds `pseudomap_detail::get_view(id)`. -/
def get_view (t : Table) (id : Nat) : Option String :=
  get_view_go t id 0 CAP

/-! ### Registry lemmas -/

theorem index_eq_mod (id p : Nat) : index id p = (id + p) % CAP := by
  have h1 : MASK = 2 ^ 16 - 1 := by decide
  have h2 : (2 ^ 16 : Nat) = CAP := by decide
  rw [index, h1, Nat.and_pow_two_sub_one_eq_mod, h2]

theorem index_ne_of_window (id probe q : Nat) (h1 : probe < q) (h2 : q < probe + CAP) :
    index id probe ≠ index id q := by
  rw [index_eq_mod, index_eq_mod]
  have hc : CAP = 65536 := by decide
  rw [hc] at h2 ⊢
  omega

/-- If every slot key differs from both 0 and `id`, the probe loop of `put`
never finds a slot: the C++ loop never returns. -/
theorem put_go_none (t : Table) (id : Nat) (p : String)
    (h : ∀ i, (t i).key ≠ 0 ∧ (t i).key ≠ id) :
    ∀ fuel probe, put_go t id p probe fuel = none := by
  intro fuel
  induction fuel with
  | zero => intro probe; rfl
  | succ n ih =>
    intro probe
    simp only [put_go]
    rw [if_neg (h (index id probe)).1, if_neg (h (index id probe)).2]
    exact ih (probe + 1)

theorem put_go_isSome (t : Table) (id : Nat) (p : String) :
    ∀ fuel probe,
      (put_go t id p probe fuel).isSome = true ↔
        ∃ q, q < fuel ∧
          ((t (index id (probe + q))).key = 0 ∨ (t (index id (probe + q))).key = id) := by
  intro fuel
  induction fuel with
  | zero =>
    intro probe
    simp [put_go]
  | succ n ih =>
    intro probe
    simp only [put_go]
    by_cases h0 : (t (index id probe)).key = 0
    · rw [if_pos h0]
      simp only [Option.isSome_some, true_iff]
      exact ⟨0, Nat.succ_pos n, by rw [Nat.add_zero]; exact Or.inl h0⟩
    · rw [if_neg h0]
      by_cases hid : (t (index id probe)).key = id
      · rw [if_pos hid]
        simp only [Option.isSome_some, true_iff]
        exact ⟨0, Nat.succ_pos n, by rw [Nat.add_zero]; exact Or.inr hid⟩
      · rw [if_neg hid, ih (probe + 1)]
        constructor
        · rintro ⟨q, hq, hk⟩
          refine ⟨q + 1, by omega, ?_⟩
          rw [show probe + (q + 1) = probe + 1 + q by omega]
          exact hk
        · rintro ⟨q, hq, hk⟩
          cases q with
          | zero =>
            rw [Nat.add_zero] at hk
            cases hk with
            | inl h' => exact absurd h' h0
            | inr h' => exact absurd h' hid
          | succ q =>
            refine ⟨q, by omega, ?_⟩
            rw [show probe + 1 + q = probe + (q + 1) by omega]
            exact hk

/-- Slots outside the window of probes actually visited are untouched. -/
theorem put_go_untouched (t : Table) (id : Nat) (p : String) :
    ∀ fuel probe t', put_go t id p probe fuel = some t' →
      ∀ j, (∀ q, probe ≤ q → q < probe + fuel → j ≠ index id q) → t' j = t j := by
  intro fuel
  induction fuel with
  | zero => intro probe t' h; exact absurd h (by simp [put_go])
  | succ n ih =>
    intro probe t' h j hj
    have hji : j ≠ index id probe := hj probe (Nat.le_refl _) (by omega)
    simp only [put_go] at h
    by_cases h0 : (t (index id probe)).key = 0
    · rw [if_pos h0] at h
      cases h
      rw [updateTable, if_neg hji]
    · rw [if_neg h0] at h
      by_cases hid : (t (index id probe)).key = id
      · rw [if_pos hid] at h
        cases h
        by_cases hp : (t (index id probe)).ptr = none
        · rw [if_pos hp, updateTable, if_neg hji]
        · rw [if_neg hp]
      · rw [if_neg hid] at h
        exact ih (probe + 1) t' h j (fun q hq1 hq2 => hj q (by omega) (by omega))

/-- A second `put` with the same non-zero id is a no-op on the table. -/
theorem put_go_idem (t : Table) (id : Nat) (a b : String) (hid : id ≠ 0) :
    ∀ fuel probe t', probe + fuel ≤ CAP → put_go t id a probe fuel = some t' →
      put_go t' id b probe fuel = some t' := by
  intro fuel
  induction fuel with
  | zero => intro probe t' _ h; exact absurd h (by simp [put_go])
  | succ n ih =>
    intro probe t' hcap h
    simp only [put_go] at h ⊢
    by_cases h0 : (t (index id probe)).key = 0
    · rw [if_pos h0] at h
      cases h
      have hk : (updateTable t (index id probe) ⟨id, some a⟩ (index id probe)).key = id := by
        simp [updateTable]
      have hp : (updateTable t (index id probe) ⟨id, some a⟩ (index id probe)).ptr = some a := by
        simp [updateTable]
      rw [hk, hp, if_neg hid, if_pos rfl]
      simp
    · rw [if_neg h0] at h
      by_cases hidk : (t (index id probe)).key = id
      · rw [if_pos hidk] at h
        by_cases hp : (t (index id probe)).ptr = none
        · rw [if_pos hp] at h
          cases h
          have hk2 : (updateTable t (index id probe) ⟨(t (index id probe)).key, some a⟩
              (index id probe)).key = id := by
            simp [updateTable, hidk]
          have hp2 : (updateTable t (index id probe) ⟨(t (index id probe)).key, some a⟩
              (index id probe)).ptr = some a := by
            simp [updateTable]
          rw [hk2, hp2, if_neg hid, if_pos rfl]
          simp
        · rw [if_neg hp] at h
          cases h
          rw [if_neg h0, if_pos hidk, if_neg hp]
      · rw [if_neg hidk] at h
        have hsame : t' (index id probe) = t (index id probe) := by
          refine put_go_untouched t id a n (probe + 1) t' h _ (fun q hq1 hq2 => ?_)
          exact index_ne_of_window id probe q (by omega) (by omega)
        rw [hsame, if_neg h0, if_neg hidk]
        exact ih (probe + 1) t' (by omega) h

/-- After a fresh registration of a non-zero id, `get_view` finds the stored
string along the same probe sequence. -/
theorem put_go_fresh_get (t : Table) (id : Nat) (a : String) (hid : id ≠ 0)
    (hfresh : ∀ i, (t i).key ≠ id) :
    ∀ fuel probe t', probe + fuel ≤ CAP → put_go t id a probe fuel = some t' →
      get_view_go t' id probe fuel = some a := by
  intro fuel
  induction fuel with
  | zero => intro probe t' _ h; exact absurd h (by simp [put_go])
  | succ n ih =>
    intro probe t' hcap h
    simp only [put_go] at h
    simp only [get_view_go]
    by_cases h0 : (t (index id probe)).key = 0
    · rw [if_pos h0] at h
      cases h
      have hk : (updateTable t (index id probe) ⟨id, some a⟩ (index id probe)).key = id := by
        simp [updateTable]
      have hp : (updateTable t (index id probe) ⟨id, some a⟩ (index id probe)).ptr = some a := by
        simp [updateTable]
      rw [hk, hp, if_neg hid, if_pos rfl]
      simp
    · rw [if_neg h0] at h
      by_cases hidk : (t (index id probe)).key = id
      · exact absurd hidk (hfresh _)
      · rw [if_neg hidk] at h
        have hsame : t' (index id probe) = t (index id probe) := by
          refine put_go_untouched t id a n (probe + 1) t' h _ (fun q hq1 hq2 => ?_)
          exact index_ne_of_window id probe q (by omega) (by omega)
        rw [hsame, if_neg h0, if_neg hidk]
        exact ih (probe + 1) t' (by omega) h

/-- Lookup under the sentinel id 0 can only ever produce the empty view:
the `k == id` branch is unreachable because `k == 0` is checked first. -/
theorem get_view_go_zero (t : Table) :
    ∀ fuel probe r, get_view_go t 0 probe fuel = some r → r = "" := by
  intro fuel
  induction fuel with
  | zero => intro probe r h; exact absurd h (by simp [get_view_go])
  | succ n ih =>
    intro probe r h
    simp only [get_view_go] at h
    by_cases h0 : (t (index 0 probe)).key = 0
    · rw [if_pos h0] at h
      exact (Option.some_inj.mp h).symm
    · rw [if_neg h0, if_neg h0] at h
      exact ih (probe + 1) r h

/-! ## SPSC bounded queue (`spsc_bounded_queue.h`)

The template is instantiated at a power-of-two capacity `C = 2 ^ k ≥ 2`
(`static_assert`s in the source).  `buf` is the backing storage; indices
`head`, `tail` and the two plain cache copies all live in `[0, C)`.
The two threads' calls on one ring are modelled as a sequence of operations
on this explicit state (each call is atomic with respect to the other side's
loads in the sequential model). -/

structure spsc_bounded_queue (T : Type) (C : Nat) where
  head : Nat
  tail : Nat
  head_cache : Nat
  tail_cache : Nat
  buf : Nat → T

/-- Embeds `emplace_impl` (also `enqueue`/`emplace`): compute
`next = (tail + 1) & Mask`; if `next` hits the cached head, refresh the cache
from `head` and re-check; report full, or store at `buf[tail]` and publish
`tail = next`. -/
def emplace_impl {T : Type} {C : Nat} (s : spsc_bounded_queue T C) (v : T) :
    spsc_bounded_queue T C × Bool :=
  let tail := s.tail
  let next := (tail + 1) &&& (C - 1)
  if next = s.head_cache then
    if next = s.head then
      ({ s with head_cache := s.head }, false)
    else
      ({ s with buf := fun i => if i = tail then v else s.buf i,
                tail := next, head_cache := s.head }, true)
  else
    ({ s with buf := fun i => if i = tail then v else s.buf i, tail := next }, true)

/-- Embeds `dequeue`: if `head` hits the cached tail, refresh the cache from
`tail` and re-check; report empty, or take `buf[head]` and publish
`head = (head + 1) & Mask`. -/
def dequeue {T : Type} {C : Nat} (s : spsc_bounded_queue T C) :
    spsc_bounded_queue T C × Option T :=
  let head := s.head
  if head = s.tail_cache then
    if head = s.tail then
      ({ s with tail_cache := s.tail }, none)
    else
      ({ s with head := (head + 1) &&& (C - 1), tail_cache := s.tail },
       some (s.buf head))
  else
    ({ s with head := (head + 1) &&& (C - 1) }, some (s.buf head))

/-- Embeds `approx_size`: `(tail + Capacity - head) & Mask`. -/
def approx_size {T : Type} {C : Nat} (s : spsc_bounded_queue T C) : Nat :=
  (s.tail + C - s.head) &&& (C - 1)

/-- The freshly constructed queue: `head = tail = head_cache = tail_cache = 0`;
the storage holds arbitrary (uninitialised) values `buf0`. -/
def spsc_init (T : Type) (C : Nat) (buf0 : Nat → T) : spsc_bounded_queue T C :=
  ⟨0, 0, 0, 0, buf0⟩

/-! ### Abstraction: the resident elements of a ring -/

/-- Number of resident elements, `(t - h) mod C` written without `%`
for heads and tails below `C`. -/
def resid (C h t : Nat) : Nat := if h ≤ t then t - h else t + C - h

/-- Ring index of the `i`-th resident element, `(h + i) mod C` written
without `%` for `h < C` and `i ≤ C`. -/
def ridx (C h i : Nat) : Nat := if h + i < C then h + i else h + i - C

/-- The resident elements of the ring, oldest first. -/
def contents {T : Type} {C : Nat} (s : spsc_bounded_queue T C) : List T :=
  (List.range (resid C s.head s.tail)).map fun i => s.buf (ridx C s.head i)

/-- Invariant of the sequential producer/consumer model: all indices are
below `C`; the producer's stale `head_cache` lags `head` by so little that
the occupancy it implies never reaches `C` (`hcache`); the consumer's stale
`tail_cache` lies between `head` and `tail` (`tcache`). -/
structure spscInv {T : Type} (C : Nat) (s : spsc_bounded_queue T C) : Prop where
  hlt : s.head < C
  tlt : s.tail < C
  hclt : s.head_cache < C
  tclt : s.tail_cache < C
  hcache : resid C s.head s.tail + resid C s.head_cache s.head ≤ C - 1
  tcache : resid C s.tail_cache s.tail ≤ resid C s.head s.tail

/-! ### Ring arithmetic and abstraction lemmas -/

theorem mask_eq_of_le {k x : Nat} (hx : x ≤ 2 ^ k) :
    x &&& (2 ^ k - 1) = if x = 2 ^ k then 0 else x := by
  rw [Nat.and_pow_two_sub_one_eq_mod]
  by_cases h : x = 2 ^ k
  · rw [if_pos h, h, Nat.mod_self]
  · rw [if_neg h, Nat.mod_eq_of_lt (by omega)]

theorem contents_write {T : Type} (C h t : Nat) (v : T) (buf : Nat → T)
    (hC : 2 ≤ C) (hh : h < C) (ht : t < C) (hfull : resid C h t < C - 1) :
    (List.range (resid C h (if t + 1 = C then 0 else t + 1))).map
        (fun i => if ridx C h i = t then v else buf (ridx C h i))
      = (List.range (resid C h t)).map (fun i => buf (ridx C h i)) ++ [v] := by
  have hr : resid C h (if t + 1 = C then 0 else t + 1) = resid C h t + 1 := by
    simp only [resid] at hfull ⊢; split_ifs at hfull ⊢ <;> omega
  rw [hr, List.range_succ, List.map_append]
  congr 1
  · refine List.map_congr_left (fun i hi => ?_)
    rw [List.mem_range] at hi
    rw [if_neg]
    simp only [resid, ridx] at hi hfull ⊢
    split_ifs at hi hfull ⊢ <;> omega
  · simp only [List.map_cons, List.map_nil]
    rw [if_pos]
    simp only [resid, ridx] at hfull ⊢
    split_ifs at hfull ⊢ <;> omega

theorem contents_read {T : Type} (C h t : Nat) (buf : Nat → T)
    (hC : 2 ≤ C) (hh : h < C) (ht : t < C) (hne : resid C h t ≠ 0) :
    (List.range (resid C h t)).map (fun i => buf (ridx C h i))
      = buf h :: (List.range (resid C (if h + 1 = C then 0 else h + 1) t)).map
          (fun i => buf (ridx C (if h + 1 = C then 0 else h + 1) i)) := by
  have hr : resid C h t = resid C (if h + 1 = C then 0 else h + 1) t + 1 := by
    simp only [resid] at hne ⊢; split_ifs at hne ⊢ <;> omega
  rw [hr, List.range_succ_eq_map, List.map_cons, List.map_map]
  congr 1
  · show buf (ridx C h 0) = buf h
    simp only [ridx]
    rw [if_pos (by omega), Nat.add_zero]
  · refine List.map_congr_left (fun i hi => ?_)
    rw [List.mem_range] at hi
    show buf (ridx C h (i + 1)) = buf (ridx C (if h + 1 = C then 0 else h + 1) i)
    have : ridx C h (i + 1) = ridx C (if h + 1 = C then 0 else h + 1) i := by
      simp only [resid] at hi hne
      simp only [ridx]
      split_ifs at hi hne ⊢ <;> omega
    rw [this]


/-! ### Step lemmas for the sequential producer/consumer model -/


theorem resid_lt {C h t : Nat} (hh : h < C) (ht : t < C) : resid C h t < C := by
  simp only [resid]; split_ifs <;> omega

theorem emplace_spec {T : Type} {k : Nat} (hk : 1 ≤ k)
    (s : spsc_bounded_queue T (2 ^ k)) (v : T) (hs : spscInv (2 ^ k) s) :
    spscInv (2 ^ k) (emplace_impl s v).1 ∧
    ((emplace_impl s v).2 = false ↔ resid (2 ^ k) s.head s.tail = 2 ^ k - 1) ∧
    ((emplace_impl s v).2 = true →
      (emplace_impl s v).1.head = s.head ∧
      contents (emplace_impl s v).1 = contents s ++ [v]) ∧
    ((emplace_impl s v).2 = false →
      (emplace_impl s v).1 = { s with head_cache := s.head }) := by
  obtain ⟨h1, h2, h3, h4, h5, h6⟩ := hs
  have hC : 2 ≤ 2 ^ k := by
    calc (2 : Nat) = 2 ^ 1 := rfl
    _ ≤ 2 ^ k := Nat.pow_le_pow_right (by omega) hk
  have hmask : (s.tail + 1) &&& (2 ^ k - 1)
      = if s.tail + 1 = 2 ^ k then 0 else s.tail + 1 := mask_eq_of_le (by omega)
  have hfulliff : ((if s.tail + 1 = 2 ^ k then 0 else s.tail + 1) = s.head)
      ↔ resid (2 ^ k) s.head s.tail = 2 ^ k - 1 := by
    simp only [resid]; split_ifs <;> omega
  by_cases hfull : resid (2 ^ k) s.head s.tail = 2 ^ k - 1
  · -- full: the enqueue reloads the cache and reports false
    have hc_eq : s.head_cache = s.head := by
      simp only [resid] at hfull h5
      split_ifs at hfull h5 <;> omega
    have hnh : (if s.tail + 1 = 2 ^ k then 0 else s.tail + 1) = s.head := hfulliff.mpr hfull
    have he : emplace_impl s v = ({ s with head_cache := s.head }, false) := by
      simp only [emplace_impl, hmask]
      rw [if_pos (hnh.trans hc_eq.symm), if_pos hnh]
    rw [he]
    refine ⟨⟨h1, h2, h1, h4, ?_, h6⟩, by simp [hfull], by simp, fun _ => rfl⟩
    show resid (2 ^ k) s.head s.tail + resid (2 ^ k) s.head s.head ≤ 2 ^ k - 1
    simp only [resid] at hfull ⊢
    split_ifs at hfull ⊢ <;> omega
  · -- not full: the element is written at tail and tail is published
    have hne_h : ¬((if s.tail + 1 = 2 ^ k then 0 else s.tail + 1) = s.head) :=
      fun hcon => hfull (hfulliff.mp hcon)
    have hlt' : resid (2 ^ k) s.head s.tail < 2 ^ k - 1 :=
      Nat.lt_of_le_of_ne (by have := resid_lt h1 h2 (C := 2 ^ k); omega) hfull
    have hcont : contents ({ s with
          buf := fun i => if i = s.tail then v else s.buf i,
          tail := if s.tail + 1 = 2 ^ k then 0 else s.tail + 1,
          head_cache := s.head } : spsc_bounded_queue T (2 ^ k)) = contents s ++ [v] := by
      simp only [contents]
      exact contents_write (2 ^ k) s.head s.tail v s.buf hC h1 h2 hlt'
    have hcont2 : contents ({ s with
          buf := fun i => if i = s.tail then v else s.buf i,
          tail := if s.tail + 1 = 2 ^ k then 0 else s.tail + 1 }
            : spsc_bounded_queue T (2 ^ k)) = contents s ++ [v] := by
      simp only [contents]
      exact contents_write (2 ^ k) s.head s.tail v s.buf hC h1 h2 hlt'
    by_cases hcc : (if s.tail + 1 = 2 ^ k then 0 else s.tail + 1) = s.head_cache
    · have he : emplace_impl s v = ({ s with
          buf := fun i => if i = s.tail then v else s.buf i,
          tail := if s.tail + 1 = 2 ^ k then 0 else s.tail + 1,
          head_cache := s.head }, true) := by
        simp only [emplace_impl, hmask]
        rw [if_pos hcc, if_neg hne_h]
      rw [he]
      refine ⟨⟨h1, ?_, h1, h4, ?_, ?_⟩,
        by simp [hfull], fun _ => ⟨rfl, hcont⟩, by simp⟩
      · show (if s.tail + 1 = 2 ^ k then 0 else s.tail + 1) < 2 ^ k
        split_ifs <;> omega
      · show resid (2 ^ k) s.head (if s.tail + 1 = 2 ^ k then 0 else s.tail + 1)
            + resid (2 ^ k) s.head s.head ≤ 2 ^ k - 1
        simp only [resid] at hlt' ⊢
        split_ifs at hlt' ⊢ <;> omega
      · show resid (2 ^ k) s.tail_cache (if s.tail + 1 = 2 ^ k then 0 else s.tail + 1)
            ≤ resid (2 ^ k) s.head (if s.tail + 1 = 2 ^ k then 0 else s.tail + 1)
        simp only [resid] at hlt' h6 ⊢
        split_ifs at hlt' h6 ⊢ <;> omega
    · have he : emplace_impl s v = ({ s with
          buf := fun i => if i = s.tail then v else s.buf i,
          tail := if s.tail + 1 = 2 ^ k then 0 else s.tail + 1 }, true) := by
        simp only [emplace_impl, hmask]
        rw [if_neg hcc]
      rw [he]
      refine ⟨⟨h1, ?_, h3, h4, ?_, ?_⟩,
        by simp [hfull], fun _ => ⟨rfl, hcont2⟩, by simp⟩
      · show (if s.tail + 1 = 2 ^ k then 0 else s.tail + 1) < 2 ^ k
        split_ifs <;> omega
      · show resid (2 ^ k) s.head (if s.tail + 1 = 2 ^ k then 0 else s.tail + 1)
            + resid (2 ^ k) s.head_cache s.head ≤ 2 ^ k - 1
        simp only [resid] at hlt' h5 ⊢
        split_ifs at hlt' h5 hcc ⊢ <;> omega
      · show resid (2 ^ k) s.tail_cache (if s.tail + 1 = 2 ^ k then 0 else s.tail + 1)
            ≤ resid (2 ^ k) s.head (if s.tail + 1 = 2 ^ k then 0 else s.tail + 1)
        simp only [resid] at hlt' h6 ⊢
        split_ifs at hlt' h6 ⊢ <;> omega



theorem dequeue_spec {T : Type} {k : Nat} (hk : 1 ≤ k)
    (s : spsc_bounded_queue T (2 ^ k)) (hs : spscInv (2 ^ k) s) :
    spscInv (2 ^ k) (dequeue s).1 ∧
    ((dequeue s).2 = none ↔ resid (2 ^ k) s.head s.tail = 0) ∧
    ((dequeue s).2 = none → (dequeue s).1 = { s with tail_cache := s.tail }) ∧
    ((dequeue s).2.isSome = true →
      (dequeue s).2 = some (s.buf s.head) ∧ (dequeue s).1.tail = s.tail ∧
      (dequeue s).1.buf = s.buf ∧
      contents s = s.buf s.head :: contents (dequeue s).1) := by
  obtain ⟨h1, h2, h3, h4, h5, h6⟩ := hs
  have hC : 2 ≤ 2 ^ k := by
    calc (2 : Nat) = 2 ^ 1 := rfl
    _ ≤ 2 ^ k := Nat.pow_le_pow_right (by omega) hk
  have hmaskh : (s.head + 1) &&& (2 ^ k - 1)
      = if s.head + 1 = 2 ^ k then 0 else s.head + 1 := mask_eq_of_le (by omega)
  by_cases hempty : resid (2 ^ k) s.head s.tail = 0
  · -- empty: the dequeue reloads the cache and reports none
    have heq : s.head = s.tail := by
      simp only [resid] at hempty; split_ifs at hempty <;> omega
    have htc : s.tail_cache = s.tail := by
      simp only [resid] at hempty h6; split_ifs at hempty h6 <;> omega
    have he : dequeue s = ({ s with tail_cache := s.tail }, none) := by
      simp only [dequeue]
      rw [if_pos (heq.trans htc.symm), if_pos heq]
    rw [he]
    refine ⟨⟨h1, h2, h3, h2, h5, ?_⟩, by simp [hempty], fun _ => rfl, by simp⟩
    show resid (2 ^ k) s.tail s.tail ≤ resid (2 ^ k) s.head s.tail
    simp only [resid]; split_ifs <;> omega
  · -- nonempty: the element at head is taken and head is published
    have hneq : ¬(s.head = s.tail) := by
      simp only [resid] at hempty; split_ifs at hempty <;> omega
    have hcont : contents s = s.buf s.head :: (List.range
        (resid (2 ^ k) (if s.head + 1 = 2 ^ k then 0 else s.head + 1) s.tail)).map
          (fun i => s.buf (ridx (2 ^ k) (if s.head + 1 = 2 ^ k then 0 else s.head + 1) i)) := by
      simp only [contents]
      exact contents_read (2 ^ k) s.head s.tail s.buf hC h1 h2 hempty
    by_cases hcc : s.head = s.tail_cache
    · have he : dequeue s = ({ s with
          head := if s.head + 1 = 2 ^ k then 0 else s.head + 1,
          tail_cache := s.tail }, some (s.buf s.head)) := by
        simp only [dequeue, hmaskh]
        rw [if_pos hcc, if_neg hneq]
      rw [he]
      refine ⟨⟨?_, h2, h3, h2, ?_, ?_⟩,
        by simp [hempty], by simp, fun _ => ⟨rfl, rfl, rfl, hcont⟩⟩
      · show (if s.head + 1 = 2 ^ k then 0 else s.head + 1) < 2 ^ k
        split_ifs <;> omega
      · show resid (2 ^ k) (if s.head + 1 = 2 ^ k then 0 else s.head + 1) s.tail
            + resid (2 ^ k) s.head_cache (if s.head + 1 = 2 ^ k then 0 else s.head + 1)
            ≤ 2 ^ k - 1
        simp only [resid] at hempty h5 ⊢
        split_ifs at hempty h5 ⊢ <;> omega
      · show resid (2 ^ k) s.tail s.tail
            ≤ resid (2 ^ k) (if s.head + 1 = 2 ^ k then 0 else s.head + 1) s.tail
        simp only [resid] at hempty ⊢
        split_ifs at hempty ⊢ <;> omega
    · have he : dequeue s = ({ s with
          head := if s.head + 1 = 2 ^ k then 0 else s.head + 1 },
            some (s.buf s.head)) := by
        simp only [dequeue, hmaskh]
        rw [if_neg hcc]
      rw [he]
      refine ⟨⟨?_, h2, h3, h4, ?_, ?_⟩,
        by simp [hempty], by simp, fun _ => ⟨rfl, rfl, rfl, hcont⟩⟩
      · show (if s.head + 1 = 2 ^ k then 0 else s.head + 1) < 2 ^ k
        split_ifs <;> omega
      · show resid (2 ^ k) (if s.head + 1 = 2 ^ k then 0 else s.head + 1) s.tail
            + resid (2 ^ k) s.head_cache (if s.head + 1 = 2 ^ k then 0 else s.head + 1)
            ≤ 2 ^ k - 1
        simp only [resid] at hempty h5 ⊢
        split_ifs at hempty h5 ⊢ <;> omega
      · show resid (2 ^ k) s.tail_cache s.tail
            ≤ resid (2 ^ k) (if s.head + 1 = 2 ^ k then 0 else s.head + 1) s.tail
        simp only [resid] at hempty h6 ⊢
        split_ifs at hempty h6 hcc ⊢ <;> omega



/-! ### Interleavings, the shutdown drain, and the ring claims -/


/-- One call on a ring issued by its producer (`enqueue v`) or its consumer
(`dequeue`); a list of these is one interleaving of the two threads' calls. -/
inductive LogOp (T : Type) where
  | enq (v : T)
  | deq

/-- Run a sequence of calls, collecting the accepted (successfully enqueued)
elements and the successfully dequeued elements, in call order. -/
def runOps {T : Type} {C : Nat} :
    List (LogOp T) → spsc_bounded_queue T C → spsc_bounded_queue T C × List T × List T
  | [], s => (s, [], [])
  | LogOp.enq v :: ops, s =>
    match emplace_impl s v with
    | (s1, ok) =>
      match runOps ops s1 with
      | (s2, es, ds) => (s2, (if ok then [v] else []) ++ es, ds)
  | LogOp.deq :: ops, s =>
    match dequeue s with
    | (s1, r) =>
      match runOps ops s1 with
      | (s2, es, ds) => (s2, es, (match r with | some x => [x] | none => []) ++ ds)

theorem spsc_init_inv {T : Type} {k : Nat} (buf0 : Nat → T) :
    spscInv (2 ^ k) (spsc_init T (2 ^ k) buf0) := by
  have hC : 0 < 2 ^ k := Nat.pos_pow_of_pos k (by omega)
  refine ⟨hC, hC, hC, hC, ?_, ?_⟩
  · show resid (2 ^ k) 0 0 + resid (2 ^ k) 0 0 ≤ 2 ^ k - 1
    simp only [resid]
    split_ifs <;> omega
  · show resid (2 ^ k) 0 0 ≤ resid (2 ^ k) 0 0
    exact Nat.le_refl _

theorem contents_init {T : Type} {k : Nat} (buf0 : Nat → T) :
    contents (spsc_init T (2 ^ k) buf0) = [] := by
  show (List.range (resid (2 ^ k) 0 0)).map _ = []
  simp [resid]

/-- Conservation over any interleaving: the dequeued elements followed by the
still-resident elements are exactly the earlier residents followed by the
accepted enqueues. -/
theorem runOps_spec {T : Type} {k : Nat} (hk : 1 ≤ k) :
    ∀ (ops : List (LogOp T)) (s : spsc_bounded_queue T (2 ^ k)), spscInv (2 ^ k) s →
      spscInv (2 ^ k) (runOps ops s).1 ∧
      (runOps ops s).2.2 ++ contents (runOps ops s).1
        = contents s ++ (runOps ops s).2.1 := by
  intro ops
  induction ops with
  | nil => intro s hs; exact ⟨hs, by simp [runOps]⟩
  | cons op ops ih =>
    intro s hs
    cases op with
    | enq v =>
      obtain ⟨hinv, hiff, htrue, hfalse⟩ := emplace_spec hk s v hs
      rcases hok : emplace_impl s v with ⟨s1, ok⟩
      rw [hok] at hinv hiff htrue hfalse
      obtain ⟨h2, h3⟩ := ih s1 hinv
      rcases hrun : runOps ops s1 with ⟨s2, es, ds⟩
      rw [hrun] at h2 h3
      simp only [runOps, hok, hrun]
      cases ok with
      | true =>
        obtain ⟨hhead, hcont⟩ := htrue rfl
        refine ⟨h2, ?_⟩
        rw [if_pos rfl]
        show ds ++ contents s2 = contents s ++ ([v] ++ es)
        rw [h3, hcont]
        simp [List.append_assoc]
      | false =>
        have hfeq : s1 = { s with head_cache := s.head } := hfalse rfl
        have hc1 : contents s1 = contents s := by rw [hfeq]; rfl
        refine ⟨h2, ?_⟩
        rw [if_neg (by simp)]
        show ds ++ contents s2 = contents s ++ ([] ++ es)
        rw [h3, hc1]
        simp
    | deq =>
      obtain ⟨hinv, hiff, hnone, hsome⟩ := dequeue_spec hk s hs
      rcases hdq : dequeue s with ⟨s1, r⟩
      rw [hdq] at hinv hiff hnone hsome
      obtain ⟨h2, h3⟩ := ih s1 hinv
      rcases hrun : runOps ops s1 with ⟨s2, es, ds⟩
      rw [hrun] at h2 h3
      simp only [runOps, hdq, hrun]
      cases r with
      | none =>
        have hfeq : s1 = { s with tail_cache := s.tail } := hnone rfl
        have hc1 : contents s1 = contents s := by rw [hfeq]; rfl
        refine ⟨h2, ?_⟩
        show [] ++ ds ++ contents s2 = contents s ++ es
        rw [List.nil_append, h3, hc1]
      | some x =>
        obtain ⟨hval, _htail, _hbuf, hcont⟩ := hsome rfl
        have hx : x = s.buf s.head := by
          have : some x = some (s.buf s.head) := hval
          exact Option.some_inj.mp this
        refine ⟨h2, ?_⟩
        show [x] ++ ds ++ contents s2 = contents s ++ es
        rw [hcont, hx]
        simp only [List.cons_append, List.nil_append, List.append_assoc]
        rw [h3]



/-- The exit-path inner loop of `Logger::run`
(`while (p->q.dequeue(rec)) format_and_emit(rec);`), with fuel: the capacity
bounds the number of resident records, so fuel `C` drains the ring. -/
def drain_go {T : Type} {C : Nat} : Nat → spsc_bounded_queue T C → List T
  | 0, _ => []
  | fuel + 1, s =>
    match dequeue s with
    | (s', some x) => x :: drain_go fuel s'
    | (_, none) => []

/-- Embeds `Logger::ProducerNode`: a private ring plus the thread-exit flag. -/
structure ProducerNode (T : Type) (C : Nat) where
  q : spsc_bounded_queue T C
  active : Bool

/-- The final drain of `Logger::run` after `done_` is observed: every
registered ring is drained to empty in list order; `active` is not consulted. -/
def run_drain {T : Type} {C : Nat} (nodes : List (ProducerNode T C)) : List T :=
  (nodes.map fun n => drain_go C n.q).flatten

theorem contents_length {T : Type} {C : Nat} (s : spsc_bounded_queue T C) :
    (contents s).length = resid C s.head s.tail := by
  simp [contents]

theorem drain_go_contents {T : Type} {k : Nat} (hk : 1 ≤ k) :
    ∀ (fuel : Nat) (s : spsc_bounded_queue T (2 ^ k)), spscInv (2 ^ k) s →
      (contents s).length ≤ fuel → drain_go fuel s = contents s := by
  intro fuel
  induction fuel with
  | zero =>
    intro s _ hlen
    have : contents s = [] := List.length_eq_zero.mp (by omega)
    rw [this]; rfl
  | succ n ih =>
    intro s hs hlen
    obtain ⟨hinv, hiff, hnone, hsome⟩ := dequeue_spec hk s hs
    rcases hdq : dequeue s with ⟨s1, r⟩
    rw [hdq] at hinv hiff hnone hsome
    simp only [drain_go, hdq]
    cases r with
    | none =>
      have hres : resid (2 ^ k) s.head s.tail = 0 := hiff.mp rfl
      have hnil : contents s = [] := by
        apply List.length_eq_zero.mp
        rw [contents_length, hres]
      show ([] : List T) = contents s
      rw [hnil]
    | some x =>
      obtain ⟨hval, _htail, _hbuf, hcont⟩ := hsome rfl
      have hx : x = s.buf s.head := by
        have : some x = some (s.buf s.head) := hval
        exact Option.some_inj.mp this
      show x :: drain_go n s1 = contents s
      rw [hcont, hx]
      congr 1
      apply ih s1 hinv
      have : (contents s).length = (contents s1).length + 1 := by rw [hcont]; rfl
      omega



/-- C1: for every SPSC ring and every interleaving of enqueue and dequeue
calls, the sequence of elements returned by successful dequeues is a prefix
of the sequence of elements accepted by successful enqueues, in the same
order (FIFO): the k-th successful dequeue returns the k-th accepted element. -/
theorem C1_spsc_fifo {T : Type} (k : Nat) (hk : 1 ≤ k) (buf0 : Nat → T)
    (ops : List (LogOp T)) :
    (runOps ops (spsc_init T (2 ^ k) buf0)).2.2
      <+: (runOps ops (spsc_init T (2 ^ k) buf0)).2.1 := by
  obtain ⟨_, h⟩ := runOps_spec hk ops _ (spsc_init_inv buf0)
  rw [contents_init] at h
  exact ⟨contents (runOps ops (spsc_init T (2 ^ k) buf0)).1, by simpa using h⟩

theorem C1_spsc_fifo_witness :
    (runOps [LogOp.enq 5, LogOp.enq 6, LogOp.deq]
        (spsc_init Nat (2 ^ 1) (fun _ => 0))).2.2
      <+: (runOps [LogOp.enq 5, LogOp.enq 6, LogOp.deq]
        (spsc_init Nat (2 ^ 1) (fun _ => 0))).2.1 :=
  C1_spsc_fifo 1 (by decide) (fun _ => 0) [LogOp.enq 5, LogOp.enq 6, LogOp.deq]

/-- C3: on every reachable ring state, `enqueue` returns false exactly when
`C - 1` elements are resident, and at most `C - 1` elements are ever
resident (usable capacity is one less than the power-of-two capacity). -/
theorem C3_usable_capacity {T : Type} (k : Nat) (hk : 1 ≤ k) (buf0 : Nat → T)
    (ops : List (LogOp T)) (v : T) :
    ((emplace_impl (runOps ops (spsc_init T (2 ^ k) buf0)).1 v).2 = false ↔
      (contents (runOps ops (spsc_init T (2 ^ k) buf0)).1).length = 2 ^ k - 1) ∧
    (contents (runOps ops (spsc_init T (2 ^ k) buf0)).1).length ≤ 2 ^ k - 1 := by
  obtain ⟨hinv, _⟩ := runOps_spec hk ops _ (spsc_init_inv buf0)
  obtain ⟨_, hiff, _, _⟩ := emplace_spec hk _ v hinv
  rw [contents_length]
  refine ⟨hiff, ?_⟩
  have := resid_lt hinv.hlt hinv.tlt
  omega

theorem C3_usable_capacity_witness :
    ((emplace_impl (runOps [LogOp.enq 5] (spsc_init Nat (2 ^ 1) (fun _ => 0))).1 6).2 = false ↔
      (contents (runOps [LogOp.enq 5] (spsc_init Nat (2 ^ 1) (fun _ => 0))).1).length
        = 2 ^ 1 - 1) ∧
    (contents (runOps [LogOp.enq 5] (spsc_init Nat (2 ^ 1) (fun _ => 0))).1).length
      ≤ 2 ^ 1 - 1 :=
  C3_usable_capacity 1 (by decide) (fun _ => 0) [LogOp.enq 5] 6

/-- C2: the worker's exit path drains every registered ring completely,
whether its flag is active or inactive, so after the final drain every
record that was ever accepted by a ring has been handed to the formatter:
for each producer the dequeued records followed by the drained records are
exactly its accepted records, in order. -/
theorem C2_shutdown_drain {T : Type} (k : Nat) (hk : 1 ≤ k) (buf0 : Nat → T)
    (prods : List (List (LogOp T) × Bool)) :
    run_drain (prods.map fun pr =>
        ProducerNode.mk (runOps pr.1 (spsc_init T (2 ^ k) buf0)).1 pr.2) =
      (prods.map fun pr =>
        drain_go (2 ^ k) (runOps pr.1 (spsc_init T (2 ^ k) buf0)).1).flatten ∧
    ∀ pr ∈ prods,
      (runOps pr.1 (spsc_init T (2 ^ k) buf0)).2.2
          ++ drain_go (2 ^ k) (runOps pr.1 (spsc_init T (2 ^ k) buf0)).1
        = (runOps pr.1 (spsc_init T (2 ^ k) buf0)).2.1 := by
  constructor
  · rw [run_drain, List.map_map]
    rfl
  · intro pr hpr
    obtain ⟨hinv, h⟩ := runOps_spec hk pr.1 _ (spsc_init_inv buf0)
    rw [contents_init] at h
    have hlen : (contents (runOps pr.1 (spsc_init T (2 ^ k) buf0)).1).length ≤ 2 ^ k := by
      rw [contents_length]
      have := resid_lt hinv.hlt hinv.tlt
      omega
    rw [drain_go_contents hk (2 ^ k) _ hinv hlen]
    simpa using h

theorem C2_shutdown_drain_witness :
    run_drain ([([LogOp.enq 3], false)].map fun pr =>
        ProducerNode.mk (runOps pr.1 (spsc_init Nat (2 ^ 1) (fun _ => 0))).1 pr.2) =
      ([([LogOp.enq 3], false)].map fun pr =>
        drain_go (2 ^ 1) (runOps pr.1 (spsc_init Nat (2 ^ 1) (fun _ => 0))).1).flatten ∧
    ∀ pr ∈ [([LogOp.enq 3], false)],
      (runOps pr.1 (spsc_init Nat (2 ^ 1) (fun _ => 0))).2.2
          ++ drain_go (2 ^ 1) (runOps pr.1 (spsc_init Nat (2 ^ 1) (fun _ => 0))).1
        = (runOps pr.1 (spsc_init Nat (2 ^ 1) (fun _ => 0))).2.1 :=
  C2_shutdown_drain 1 (by decide) (fun _ => 0) [([LogOp.enq 3], false)]




/-! ## Consumer formatting (`steroidslog.h`, `Logger::run`) -/

/-- Embeds the loop of `format_simple`: scan the format with one-character
lookahead; an escaped open brace emits one open brace, an open-close pair
consumes the next argument (or emits the two literal characters when none is
left), an escaped close brace emits one close brace, a lone brace or any
other character is copied verbatim. -/
def format_simple (fmt : List Char) (args : List String) : List Char :=
  match fmt, args with
  | [], _ => []
  | '\x7b' :: '\x7b' :: rest, args => '\x7b' :: format_simple rest args
  | '\x7b' :: '\x7d' :: rest, a :: args => a.data ++ format_simple rest args
  | '\x7b' :: '\x7d' :: rest, [] => '\x7b' :: '\x7d' :: format_simple rest []
  | '\x7b' :: rest, args => '\x7b' :: format_simple rest args
  | '\x7d' :: '\x7d' :: rest, args => '\x7d' :: format_simple rest args
  | '\x7d' :: rest, args => '\x7d' :: format_simple rest args
  | c :: rest, args => c :: format_simple rest args

/-- A token of the spec's formatting mini-language: a literal character or
the two-character placeholder.  Written from the spec's words, to be
compared with the one-pass source loop. -/
inductive FmtTok where
  | lit (c : Char)
  | hole

/-- Tokenisation per the spec: the only placeholder is the two-character
open-close sequence; doubled braces are literal braces; a lone brace is
copied verbatim. -/
def tokenize : List Char → List FmtTok
  | [] => []
  | '\x7b' :: '\x7b' :: rest => FmtTok.lit '\x7b' :: tokenize rest
  | '\x7b' :: '\x7d' :: rest => FmtTok.hole :: tokenize rest
  | '\x7d' :: '\x7d' :: rest => FmtTok.lit '\x7d' :: tokenize rest
  | c :: rest => FmtTok.lit c :: tokenize rest

/-- Rendering per the spec: the `i`-th hole consumes the `i`-th argument; a
hole with no remaining argument emits the two literal placeholder
characters; arguments beyond the holes are ignored. -/
def render_toks : List FmtTok → List String → List Char
  | [], _ => []
  | FmtTok.lit c :: ts, args => c :: render_toks ts args
  | FmtTok.hole :: ts, a :: args => a.data ++ render_toks ts args
  | FmtTok.hole :: ts, [] => '\x7b' :: '\x7d' :: render_toks ts []

theorem tokenize_open_other (c2 : Char) (rest : List Char)
    (h1 : c2 = '\x7b' → False) (h2 : c2 = '\x7d' → False) :
    tokenize ('\x7b' :: c2 :: rest) = FmtTok.lit '\x7b' :: tokenize (c2 :: rest) := by
  rw [tokenize.eq_def]
  split
  · rename_i heq
    exact absurd heq (List.cons_ne_nil _ _)
  · rename_i heq
    injection heq with hhd htl
    injection htl with hc _
    exact absurd hc h1
  · rename_i heq
    injection heq with hhd htl
    injection htl with hc _
    exact absurd hc h2
  · rename_i heq
    injection heq with hhd htl
    exact absurd hhd (by decide)
  · rename_i heq
    injection heq with hhd htl
    rw [← hhd, ← htl]

theorem tokenize_close_other (c2 : Char) (rest : List Char)
    (h : c2 = '\x7d' → False) :
    tokenize ('\x7d' :: c2 :: rest) = FmtTok.lit '\x7d' :: tokenize (c2 :: rest) := by
  rw [tokenize.eq_def]
  split
  · rename_i heq
    exact absurd heq (List.cons_ne_nil _ _)
  · rename_i heq
    injection heq with hhd htl
    exact absurd hhd (by decide)
  · rename_i heq
    injection heq with hhd htl
    exact absurd hhd (by decide)
  · rename_i heq
    injection heq with hhd htl
    injection htl with hc _
    exact absurd hc h
  · rename_i heq
    injection heq with hhd htl
    rw [← hhd, ← htl]

theorem tokenize_other (c : Char) (rest : List Char)
    (h1 : c = '\x7b' → False) (h2 : c = '\x7d' → False) :
    tokenize (c :: rest) = FmtTok.lit c :: tokenize rest := by
  rw [tokenize.eq_def]
  split
  · rename_i heq
    exact absurd heq (List.cons_ne_nil _ _)
  · rename_i heq
    injection heq with hhd htl
    exact absurd hhd h1
  · rename_i heq
    injection heq with hhd htl
    exact absurd hhd h1
  · rename_i heq
    injection heq with hhd htl
    exact absurd hhd h2
  · rename_i heq
    injection heq with hhd htl
    rw [← hhd, ← htl]

/-- C4: the source's one-pass `format_simple` renders exactly per the spec's
mini-language: tokenise the format (escaped braces, placeholder pairs, lone
braces verbatim) and substitute the `i`-th placeholder by the `i`-th
argument, emitting the literal placeholder when arguments run out and
ignoring extra arguments. -/
theorem C4_format_simple (fmt : List Char) (args : List String) :
    format_simple fmt args = render_toks (tokenize fmt) args := by
  induction fmt, args using format_simple.induct with
  | case1 args => rfl
  | case2 rest args ih => simp only [format_simple, tokenize, render_toks, ih]
  | case3 rest a args ih => simp only [format_simple, tokenize, render_toks, ih]
  | case4 rest ih => simp only [format_simple, tokenize, render_toks, ih]
  | case5 rest args h1 h2 h3 ih =>
    simp only [format_simple]
    cases rest with
    | nil => rfl
    | cons c2 rest2 =>
      have hc1 : c2 = '\x7b' → False := fun hc => h1 rest2 (by rw [hc])
      have hc2 : c2 = '\x7d' → False := by
        intro hc
        cases args with
        | nil => exact h3 rest2 (by rw [hc]) rfl
        | cons a args2 => exact h2 rest2 a args2 (by rw [hc]) rfl
      rw [tokenize_open_other c2 rest2 hc1 hc2]
      simp only [render_toks, ih]
  | case6 rest args ih => simp only [format_simple, tokenize, render_toks, ih]
  | case7 rest args h ih =>
    simp only [format_simple]
    cases rest with
    | nil => rfl
    | cons c2 rest2 =>
      have hc : c2 = '\x7d' → False := fun hcx => h rest2 (by rw [hcx])
      rw [tokenize_close_other c2 rest2 hc]
      simp only [render_toks, ih]
  | case8 c rest args e1 e2 e3 e4 e5 e6 ih =>
    simp only [format_simple]
    rw [tokenize_other c rest e4 e6]
    simp only [render_toks, ih]



/-! ## Argument packing and record emission (`steroidslog.h`) -/

/-- Tunable `MAX_MSG_LEN = 256` (emit truncation cap). -/
def MAX_MSG_LEN : Nat := 256

/-- Embeds `arg_slot_t = std::variant<uint64_t, double, std::string_view>`.
The double payload is carried as its uninterpreted bit pattern; its rendering
is implementation-defined and passed as a parameter below. -/
inductive arg_slot_t where
  | u64 (v : Nat)
  | f64 (bits : Nat)
  | sv (s : String)
deriving DecidableEq

/-- Embeds `make_argslot` in the integral case on an LP64 target:
`static_cast<uint64_t>(static_cast<uintptr_t>(v))`, i.e. reduction of the
signed value modulo `2 ^ 64`. -/
def make_argslot_int (v : Int) : arg_slot_t :=
  arg_slot_t.u64 (v % (2 ^ 64 : Int)).toNat

/-- Embeds `RawLogRecord`; `arg_count` is the length of `args`. -/
structure RawLogRecord where
  fmt_id : Nat
  args : List arg_slot_t
deriving DecidableEq

/-- The per-argument rendering of `format_and_emit`'s `std::visit`:
`std::to_string` base-10 for `uint64_t`, the parameter `renderF64` for a
double, the bytes themselves for a string view. -/
def render_arg (renderF64 : Nat → String) : arg_slot_t → String
  | arg_slot_t.u64 v => Nat.repr v
  | arg_slot_t.f64 b => renderF64 b
  | arg_slot_t.sv s => s

/-- Embeds `format_and_emit`: look up the format id (the `lookup` parameter
stands for `pseudomap::get`); when the lookup comes back empty substitute
the two-character placeholder string as the format; render the arguments;
run `format_simple`; write at most `MAX_MSG_LEN - 1` bytes plus a newline. -/
def format_and_emit (renderF64 : Nat → String) (lookup : Nat → String)
    (rec : RawLogRecord) : List Char :=
  let fmt0 := lookup rec.fmt_id
  let fmt := if fmt0 = "" then "\x7b\x7d" else fmt0
  let views := rec.args.map (render_arg renderF64)
  let s := format_simple fmt.data views
  s.take (MAX_MSG_LEN - 1) ++ ['\n']

/-- C5 counterexample: a record whose id is absent from the registry is
emitted as its first argument under the substituted placeholder format — the
output is `hello` plus a newline and contains no `<` at all, so no
`<unknown fmt id=…>` text is produced. -/
theorem C5_unknown_id_counterexample :
    format_and_emit (fun _ => "") (fun _ => "") ⟨99, [arg_slot_t.sv "hello"]⟩
        = "hello\n".data ∧
    ("hello\n".data.contains '<') = false := by
  constructor
  · rfl
  · decide

/-- C5 (amended): when the registry lookup returns the empty view the
consumer does not terminate; it substitutes the placeholder string as the
format and therefore emits the first argument's rendering (or the two
literal placeholder characters when the record carries no argument),
truncated to `MAX_MSG_LEN - 1` bytes, plus a newline. -/
theorem C5_unknown_id_fallback (renderF64 : Nat → String) (lookup : Nat → String)
    (rec : RawLogRecord) (h : lookup rec.fmt_id = "") :
    format_and_emit renderF64 lookup rec =
      (match rec.args with
        | [] => ['\x7b', '\x7d']
        | a :: _ => (render_arg renderF64 a).data).take (MAX_MSG_LEN - 1)
        ++ ['\n'] := by
  simp only [format_and_emit, h, if_pos rfl]
  cases hargs : rec.args with
  | nil => rfl
  | cons a rest => simp [format_simple]

theorem C5_unknown_id_fallback_witness :
    format_and_emit (fun _ => "") (fun _ => "") ⟨7, []⟩ =
      (match ([] : List arg_slot_t) with
        | [] => ['\x7b', '\x7d']
        | a :: _ => (render_arg (fun _ => "") a).data).take (MAX_MSG_LEN - 1)
        ++ ['\n'] :=
  C5_unknown_id_fallback (fun _ => "") (fun _ => "") ⟨7, []⟩ rfl

/-- C10: an integral argument is packed through the pointer-width unsigned
type into the unsigned 64-bit slot: a negative value `v` becomes
`2 ^ 64 + v`, rendered in base 10 as that unsigned value; logging `-1`
against one placeholder emits `18446744073709551615`, not `-1`. -/
theorem C10_int_packing (v : Int) (h1 : -(2 ^ 63) ≤ v) (h2 : v < 0) :
    make_argslot_int v = arg_slot_t.u64 (2 ^ 64 + v).toNat ∧
    format_and_emit (fun _ => "") (fun _ => "")
        ⟨1, [make_argslot_int (-1)]⟩ = "18446744073709551615\n".data := by
  constructor
  · unfold make_argslot_int
    congr 1
    omega
  · rfl

theorem C10_int_packing_witness :
    make_argslot_int (-1) = arg_slot_t.u64 (2 ^ 64 + (-1)).toNat ∧
    format_and_emit (fun _ => "") (fun _ => "")
        ⟨1, [make_argslot_int (-1)]⟩ = "18446744073709551615\n".data :=
  C10_int_packing (-1) (by decide) (by decide)



/-- C7: the hash is the 32-bit FNV-1a exactly as the spec words it — offset
basis `0x811C9DC5`, prime `0x01000193`, `h = (h XOR byte) * prime` over the
bytes in order — and the test vector holds: the hash of `abc` is
`0x1A47E90B`. -/
theorem C7_fnv1a (s : List Char) :
    fnv1a_32_constexpr s = fnv1a_spec (s.map byte_of_char) ∧
    fnv1a_32 "abc" = 0x1A47E90B := by
  constructor
  · unfold fnv1a_32_constexpr fnv1a_spec
    rw [List.foldl_map]
  · decide

/-- C8: the literal `$wCJ1L` has FNV-1a hash 0, and the macro derives the
registration id directly from the hash with no bump, so this literal is
carried under id 0 — the registry's empty-slot sentinel.  A lookup of id 0
can only ever return the empty view (the `k == id` branch is shadowed by the
`k == 0` empty test), so such a literal's registration is never visible. -/
theorem C8_zero_id_sentinel :
    sterlog_id "$wCJ1L" = 0 ∧
    ∀ (t : Table) (r : String), get_view t 0 = some r → r = "" := by
  refine ⟨by decide, fun t r h => get_view_go_zero t CAP 0 r h⟩

theorem C8_zero_id_sentinel_witness :
    sterlog_id "$wCJ1L" = 0 ∧ ("" : String) = "" :=
  ⟨C8_zero_id_sentinel.1, C8_zero_id_sentinel.2 emptyTable "" (by decide)⟩

/-- C6 (amended): `register` returns exactly when some probe position within
one full cycle of the table holds an empty slot or the same id (installing
or idempotently succeeding there); when every slot is occupied by a
different key the probe loop never returns — the code has no RegistryFull
failure path. -/
theorem C6_put_termination (t : Table) (id : Nat) (p : String) :
    (put t id p).isSome = true ↔
      ∃ q, q < CAP ∧ ((t (index id q)).key = 0 ∨ (t (index id q)).key = id) := by
  show (put_go t id p 0 CAP).isSome = true ↔ _
  rw [put_go_isSome]
  constructor
  · rintro ⟨q, hq, hk⟩
    exact ⟨q, hq, by simpa using hk⟩
  · rintro ⟨q, hq, hk⟩
    exact ⟨q, hq, by simpa using hk⟩

/-- C6 counterexample: on a table whose every slot holds the foreign key 1,
`register` of id 2 probes forever — `put` never returns (`none` in the
model), rather than failing with a RegistryFull error. -/
theorem C6_counterexample :
    put (fun _ => ⟨1, some "x"⟩) 2 "y" = none := by
  apply put_go_none
  intro i
  exact ⟨by decide, by decide⟩

/-- C9 (amended): for a non-zero id, a second `register(id, b)` after a
completed `register(id, a)` is a no-op on the table; and when the id was
fresh in the table, `lookup(id)` after the first registration returns `a`
(hence still `a` after the second).  Id 0 is excluded: it collides with the
empty-slot sentinel, the key CAS succeeds repeatedly and the stored bytes
are overwritten. -/
theorem C9_register_write_once (t : Table) (id : Nat) (a b : String) (t' : Table)
    (hid : id ≠ 0) (h1 : put t id a = some t') :
    put t' id b = some t' ∧
    ((∀ i, (t i).key ≠ id) → get_view t' id = some a) := by
  constructor
  · exact put_go_idem t id a b hid CAP 0 t' (by omega) h1
  · intro hfresh
    exact put_go_fresh_get t id a hid hfresh CAP 0 t' (by omega) h1

theorem C9_register_write_once_witness :
    put (updateTable emptyTable (index 1 0) ⟨1, some "a"⟩) 1 "b"
        = some (updateTable emptyTable (index 1 0) ⟨1, some "a"⟩) ∧
    ((∀ i, (emptyTable i).key ≠ 1) →
      get_view (updateTable emptyTable (index 1 0) ⟨1, some "a"⟩) 1 = some "a") :=
  C9_register_write_once emptyTable 1 "a" "b"
    (updateTable emptyTable (index 1 0) ⟨1, some "a"⟩) (by decide) rfl

/-- C9 counterexample: with id 0 (reachable, since a literal can hash to 0
and no bump exists) the registry is not write-once: registering `a` then `b`
under id 0 leaves the slot's stored bytes equal to `b`, not `a`. -/
theorem C9_counterexample :
    (((put emptyTable 0 "a").bind fun t1 => put t1 0 "b").map
        fun t2 => (t2 (index 0 0)).ptr) = some (some "b") ∧
    (some "b" : Option String) ≠ some "a" := by
  constructor
  · rfl
  · decide


end steroidslog
